import Mathlib

/-!
Verification development for the task-manager repository.

The repository is a set of near-duplicate task-list UIs; the authoritative
variant for the persisted JSON task model is `src/personal_task_manager.py`.
This file gives a shallow embedding of its task record model and of the
derived-view logic (due-date parsing, overdue classification, sorting,
filtering, grouping, summary statistics, persistence round trip) and proves
the specification's claims about them.

Conventions of the embedding:
* Python dicts holding the seven task fields become the `Task` structure.
* `datetime` values become the `DateTime` structure (year/month/day/hour/
  minute, the fields `strptime "%Y/%m/%d %H:%M"` can produce); Python's
  lexicographic comparison of datetimes is realised through the injective
  monotone encoding `DateTime.toKey`.
* `datetime.strptime(s, "%Y/%m/%d %H:%M")` becomes `strptimeDue` on the
  character list of `s`: `%Y` is exactly four digits, `%m`/`%d`/`%H`/`%M`
  are one or two digits, the format's blank matches one or more whitespace
  characters, the whole string must be consumed, and the `datetime`
  constructor's range checks (month 1..12, day within the month including
  leap years, hour below 24, minute below 60, year at least 1) are applied;
  any failure is `none`, modelling the caught `ValueError`.
* `datetime.now()` is an ambient input of the handlers and becomes an
  explicit `now : DateTime` parameter.
* Python's `sorted` is a stable sort; it is modelled by `List.insertionSort`
  (stable), on exactly the key used at each call site.
-/

/-- A task record: the dictionary stored in `st.session_state.tasks` and in
`tasks_data.json`, with its seven string fields.  (Named `TaskRec` because
`Task` is taken by the Lean core library.) -/
structure TaskRec where
  id : String
  name : String
  description : String
  due_date : String
  due_time : String
  priority : String
  status : String
deriving DecidableEq

/-- A parsed due datetime: the components `strptime "%Y/%m/%d %H:%M"`
produces (seconds and microseconds are always zero for this format). -/
structure DateTime where
  year : Nat
  month : Nat
  day : Nat
  hour : Nat
  minute : Nat
deriving DecidableEq

/-- Numeric value of a decimal digit character. -/
def digitVal (c : Char) : Nat := c.toNat - 48

/-- Exactly four decimal digits, as `%Y` matches. -/
def take4Digits : List Char → Option (Nat × List Char)
  | a :: b :: c :: d :: rest =>
    if a.isDigit && b.isDigit && c.isDigit && d.isDigit then
      some (((digitVal a * 10 + digitVal b) * 10 + digitVal c) * 10 + digitVal d, rest)
    else none
  | _ => none

/-- One or two decimal digits, greedily, as `%m`, `%d`, `%H` and `%M` match.
In the format `"%Y/%m/%d %H:%M"` every such field is followed by a
non-digit or the end of the input, so greedy matching without backtracking
coincides with the regular-expression semantics of `strptime`. -/
def take1or2Digits : List Char → Option (Nat × List Char)
  | a :: b :: rest =>
    if a.isDigit then
      if b.isDigit then some (digitVal a * 10 + digitVal b, rest)
      else some (digitVal a, b :: rest)
    else none
  | [a] => if a.isDigit then some (digitVal a, []) else none
  | [] => none

/-- A literal character of the format. -/
def expectChar (c : Char) : List Char → Option (List Char)
  | x :: rest => if x = c then some rest else none
  | [] => none

/-- Drop further whitespace characters. -/
def skipWsMore : List Char → List Char
  | x :: rest => if x.isWhitespace then skipWsMore rest else x :: rest
  | [] => []

/-- One or more whitespace characters, as a blank in a `strptime` format
matches. -/
def skipWs1 : List Char → Option (List Char)
  | x :: rest => if x.isWhitespace then some (skipWsMore rest) else none
  | [] => none

/-- The Gregorian leap-year rule `calendar.isleap` / `datetime` use. -/
def isLeapYear (y : Nat) : Bool := y % 4 = 0 && (y % 100 ≠ 0 || y % 400 = 0)

/-- Number of days of month `m` of year `y`. -/
def daysInMonth (y m : Nat) : Nat :=
  if m = 2 then (if isLeapYear y then 29 else 28)
  else if m = 4 || m = 6 || m = 9 || m = 11 then 30
  else 31

/-- Shallow embedding of `datetime.strptime(s, "%Y/%m/%d %H:%M")` on the
characters of `s`: the five numeric fields with their literal separators,
full consumption of the input, and the `datetime` range validation.  `none`
models the `ValueError` that `format_due_datetime` catches. -/
def strptimeDue (cs : List Char) : Option DateTime :=
  Option.bind (take4Digits cs) fun py =>
  Option.bind (expectChar '/' py.2) fun r2 =>
  Option.bind (take1or2Digits r2) fun pm =>
  Option.bind (expectChar '/' pm.2) fun r4 =>
  Option.bind (take1or2Digits r4) fun pd =>
  Option.bind (skipWs1 pd.2) fun r6 =>
  Option.bind (take1or2Digits r6) fun ph =>
  Option.bind (expectChar ':' ph.2) fun r8 =>
  Option.bind (take1or2Digits r8) fun pmin =>
  if pmin.2 = [] ∧ 1 ≤ py.1 ∧ py.1 ≤ 9999 ∧ 1 ≤ pm.1 ∧ pm.1 ≤ 12 ∧ 1 ≤ pd.1 ∧
      pd.1 ≤ daysInMonth py.1 pm.1 ∧ ph.1 ≤ 23 ∧ pmin.1 ≤ 59 then
    some ⟨py.1, pm.1, pd.1, ph.1, pmin.1⟩
  else none

/-- Embedding of `format_due_datetime(due_date_str, due_time_str)`: parse the
concatenation `due_date_str + " " + due_time_str` with the due format,
returning `none` when parsing raises. -/
def format_due_datetime (due_date_str due_time_str : String) : Option DateTime :=
  strptimeDue (due_date_str ++ " " ++ due_time_str).toList

/-- Injective monotone encoding of a datetime as a natural number.  For
datetimes whose month, day, hour and minute are within the calendar ranges
(as every parsed datetime is) comparison of keys coincides with Python's
lexicographic comparison of `datetime` values; see `DateTime.toKey_lt_iff`. -/
def DateTime.toKey (dt : DateTime) : Nat :=
  (((dt.year * 13 + dt.month) * 32 + dt.day) * 24 + dt.hour) * 60 + dt.minute

/-- Python's lexicographic strict order on `datetime` values, stated
componentwise: the specification's "strictly before". -/
def DateTime.Before (a b : DateTime) : Prop :=
  a.year < b.year ∨ (a.year = b.year ∧
    (a.month < b.month ∨ (a.month = b.month ∧
      (a.day < b.day ∨ (a.day = b.day ∧
        (a.hour < b.hour ∨ (a.hour = b.hour ∧ a.minute < b.minute)))))))

instance (a b : DateTime) : Decidable (a.Before b) := by
  unfold DateTime.Before
  exact inferInstance

/-- The component ranges a real `datetime` value satisfies (`MINYEAR = 1`,
`MAXYEAR = 9999`).  Every value `strptimeDue` produces is in range, and
`datetime.now()` always is. -/
def DateTime.InRange (dt : DateTime) : Prop :=
  1 ≤ dt.year ∧ dt.year ≤ 9999 ∧ 1 ≤ dt.month ∧ dt.month ≤ 12 ∧
    1 ≤ dt.day ∧ dt.day ≤ 31 ∧ dt.hour ≤ 23 ∧ dt.minute ≤ 59

instance (dt : DateTime) : Decidable dt.InRange := by
  unfold DateTime.InRange
  exact inferInstance

/-- Embedding of `is_overdue(task)`: the due datetime parses, is strictly
before `now`, and the status is not `"Completed"`.  `datetime.now()` is the
explicit parameter `now`. -/
def is_overdue (t : TaskRec) (now : DateTime) : Bool :=
  match format_due_datetime t.due_date t.due_time with
  | some due_dt => decide (due_dt.toKey < now.toKey) && !(t.status == "Completed")
  | none => false

theorem daysInMonth_le_31 (y m : Nat) : daysInMonth y m ≤ 31 := by
  unfold daysInMonth
  split
  · split <;> omega
  · split <;> omega

/-- Every datetime `strptimeDue` returns satisfies the calendar ranges. -/
theorem strptimeDue_inRange {cs : List Char} {dt : DateTime}
    (h : strptimeDue cs = some dt) : dt.InRange := by
  unfold strptimeDue at h
  simp only [Option.bind_eq_some] at h
  obtain ⟨py, hpy, r2, hr2, pm, hpm, r4, hr4, pd, hpd, r6, hr6, ph, hph, r8, hr8, pmin, hpmin, hfin⟩ := h
  split at hfin
  · rename_i hcond
    cases hfin
    have hd31 : pd.1 ≤ 31 :=
      le_trans hcond.2.2.2.2.2.2.1 (daysInMonth_le_31 py.1 pm.1)
    exact ⟨hcond.2.1, hcond.2.2.1, hcond.2.2.2.1, hcond.2.2.2.2.1,
      hcond.2.2.2.2.2.1, hd31, hcond.2.2.2.2.2.2.2.1, hcond.2.2.2.2.2.2.2.2⟩
  · cases hfin

/-- For datetimes within the calendar ranges, comparison of the numeric keys
is exactly the lexicographic (Python `datetime`) strict order. -/
theorem DateTime.toKey_lt_iff {a b : DateTime} (ha : a.InRange) (hb : b.InRange) :
    a.toKey < b.toKey ↔ a.Before b := by
  obtain ⟨_, _, _, _, _, _, _, _⟩ := ha
  obtain ⟨_, _, _, _, _, _, _, _⟩ := hb
  cases a
  cases b
  simp only [DateTime.toKey, DateTime.Before] at *
  omega

/-- Keys of in-range datetimes are bounded by the key of the last
expressible minute of year 9999. -/
theorem DateTime.toKey_le_of_inRange {a : DateTime} (ha : a.InRange) :
    a.toKey ≤ DateTime.toKey ⟨9999, 12, 31, 23, 59⟩ := by
  obtain ⟨_, _, _, _, _, _, _, _⟩ := ha
  cases a
  simp only [DateTime.toKey] at *
  omega

/-- The key `datetime.max` plays in `sort_tasks`: every datetime this format
can parse has zero seconds, hence is strictly below
`datetime.max = 9999-12-31 23:59:59.999999`; that strict gap is modelled by
one more than the key of 9999-12-31 23:59. -/
def maxSortKey : Nat := DateTime.toKey ⟨9999, 12, 31, 23, 59⟩ + 1

/-- Embedding of `due_dt_or_max`: the key `sort_tasks` sorts by, the parsed
due datetime or `datetime.max` when parsing fails. -/
def due_dt_or_max (t : TaskRec) : Nat :=
  match format_due_datetime t.due_date t.due_time with
  | some dt => dt.toKey
  | none => maxSortKey

/-- The three values of the "Sort Tasks By" select box. -/
inductive SortKey where
  | noSort
  | dueDate
  | priorityKey

/-- Embedding of the `priority_order` lookup with default 99:
`{"High": 0, "Medium": 1, "Low": 2}.get(t["priority"], 99)`. -/
def priority_order (p : String) : Nat :=
  if p = "High" then 0 else if p = "Medium" then 1 else if p = "Low" then 2 else 99

/-- Embedding of `sort_tasks(tasks, sort_key)`.  Python's `sorted` is a
stable sort on the given key; it is modelled by the stable
`List.insertionSort` on the same key. -/
def sort_tasks (tasks : List TaskRec) : SortKey → List TaskRec
  | SortKey.dueDate =>
      List.insertionSort (fun a b => due_dt_or_max a ≤ due_dt_or_max b) tasks
  | SortKey.priorityKey =>
      List.insertionSort (fun a b => priority_order a.priority ≤ priority_order b.priority) tasks
  | SortKey.noSort => tasks

instance : IsTotal TaskRec (fun a b => due_dt_or_max a ≤ due_dt_or_max b) :=
  ⟨fun a b => Nat.le_total (due_dt_or_max a) (due_dt_or_max b)⟩

instance : IsTrans TaskRec (fun a b => due_dt_or_max a ≤ due_dt_or_max b) :=
  ⟨fun _ _ _ => Nat.le_trans⟩

/-- Every sort key is bounded by the maximal key. -/
theorem due_dt_or_max_le (t : TaskRec) : due_dt_or_max t ≤ maxSortKey := by
  unfold due_dt_or_max
  split
  · rename_i dt hdt
    have : dt.InRange := strptimeDue_inRange hdt
    have := DateTime.toKey_le_of_inRange this
    unfold maxSortKey
    omega
  · exact Nat.le_refl _

/-- A task's sort key is the maximal key exactly when its due datetime does
not parse: unparsable tasks, and only they, are "treated as maximal". -/
theorem due_dt_or_max_eq_max_iff (t : TaskRec) :
    due_dt_or_max t = maxSortKey ↔ format_due_datetime t.due_date t.due_time = none := by
  unfold due_dt_or_max
  split
  · rename_i dt hdt
    have : dt.InRange := strptimeDue_inRange hdt
    have := DateTime.toKey_le_of_inRange this
    simp only [hdt]
    constructor
    · intro hk
      exact absurd hk (by unfold maxSortKey; omega)
    · intro hk
      cases hk
  · rename_i hdt
    simp [hdt]

/-- Embedding of the grouping loop body
`tasks_by_date.setdefault(t["due_date"], []).append(t)`: append the task to
the group of its raw `due_date` string, creating the group at the end when
the key is new (Python dicts keep keys in first-insertion order). -/
def insertByDate (acc : List (String × List TaskRec)) (t : TaskRec) :
    List (String × List TaskRec) :=
  match acc with
  | [] => [(t.due_date, [t])]
  | (d, g) :: rest =>
    if d = t.due_date then (d, g ++ [t]) :: rest
    else (d, g) :: insertByDate rest t

/-- Embedding of the `tasks_by_date` dict after the grouping loop, as an
association list in key first-insertion order. -/
def tasks_by_date (tasks : List TaskRec) : List (String × List TaskRec) :=
  tasks.foldl insertByDate []

/-- Lexicographic comparison of character lists by code point: Python's
string comparison. -/
def charListLe : List Char → List Char → Bool
  | [], _ => true
  | _ :: _, [] => false
  | a :: as_, b :: bs =>
    if a.toNat < b.toNat then true
    else if b.toNat < a.toNat then false
    else charListLe as_ bs

/-- Python's `a <= b` on strings. -/
def pyStringLe (a b : String) : Bool := charListLe a.data b.data

theorem charListLe_total (as_ bs : List Char) :
    charListLe as_ bs = true ∨ charListLe bs as_ = true := by
  induction as_ generalizing bs with
  | nil => left; rfl
  | cons a at_ ih =>
    cases bs with
    | nil => right; rfl
    | cons b bt =>
      by_cases hab : a.toNat < b.toNat
      · left; simp [charListLe, hab]
      · by_cases hba : b.toNat < a.toNat
        · right; simp [charListLe, hba]
        · rcases ih bt with h | h
          · left; simp [charListLe, hab, hba, h]
          · right; simp [charListLe, hab, hba, h]

theorem charListLe_trans {as_ bs cs : List Char}
    (h1 : charListLe as_ bs = true) (h2 : charListLe bs cs = true) :
    charListLe as_ cs = true := by
  induction as_ generalizing bs cs with
  | nil => rfl
  | cons a at_ ih =>
    cases bs with
    | nil => simp [charListLe] at h1
    | cons b bt =>
      cases cs with
      | nil => simp [charListLe] at h2
      | cons c ct =>
        simp only [charListLe] at h1 h2 ⊢
        split at h1
        · rename_i hab
          split at h2
          · rename_i hbc
            simp [show a.toNat < c.toNat from by omega]
          · split at h2
            · cases h2
            · rename_i hbc hcb
              simp [show a.toNat < c.toNat from by omega]
        · split at h1
          · cases h1
          · rename_i hab hba
            split at h2
            · rename_i hbc
              simp [show a.toNat < c.toNat from by omega]
            · split at h2
              · cases h2
              · rename_i hbc hcb
                have hac : ¬ a.toNat < c.toNat := by omega
                have hca : ¬ c.toNat < a.toNat := by omega
                simp only [hac, hca, if_false]
                exact ih h1 h2

/-- Embedding of the calendar view's iteration
`for due_date in sorted(tasks_by_date.keys())`: the groups emitted in
ascending order of their raw key string under Python's code-point
comparison `pyStringLe`. -/
def group_by_due_date (tasks : List TaskRec) : List (String × List TaskRec) :=
  List.insertionSort (fun a b => pyStringLe a.1 b.1 = true) (tasks_by_date tasks)

instance : IsTotal (String × List TaskRec) (fun a b => pyStringLe a.1 b.1 = true) :=
  ⟨fun a b => charListLe_total a.1.data b.1.data⟩

instance : IsTrans (String × List TaskRec) (fun a b => pyStringLe a.1 b.1 = true) :=
  ⟨fun _ _ _ h1 h2 => charListLe_trans h1 h2⟩

/-- Lookup of one group in the association list (first matching key, as a
Python dict access on keys that are unique by construction). -/
def lookupGroup (acc : List (String × List TaskRec)) (d : String) : List TaskRec :=
  match acc with
  | [] => []
  | (k, g) :: rest => if k = d then g else lookupGroup rest d

/-- Embedding of Python's `str.lower()` (ASCII case folding, which is all the
stored field values use), character by character. -/
def pyLower (s : String) : String := String.mk (s.data.map Char.toLower)

/-- The specification's "case-insensitive substring" relation: the lowered
needle occurs contiguously in the lowered haystack, Python's
`needle.lower() in hay.lower()`. -/
def SubstrOf (needle hay : String) : Prop :=
  (pyLower needle).toList <:+: (pyLower hay).toList

instance (needle hay : String) : Decidable (SubstrOf needle hay) := by
  unfold SubstrOf
  exact inferInstance

/-- Embedding of the search comprehension's condition:
`search_lower in t["name"].lower() or search_lower in t["description"].lower()
or search_lower in t["status"].lower()`. -/
def matches_search (kw : String) (t : TaskRec) : Bool :=
  decide (SubstrOf kw t.name) || decide (SubstrOf kw t.description) ||
    decide (SubstrOf kw t.status)

/-- Embedding of the search filter: `if search:` guards the comprehension, so
the empty keyword (falsy) leaves the list untouched. -/
def search_filter (tasks : List TaskRec) (kw : String) : List TaskRec :=
  if kw = "" then tasks else tasks.filter (matches_search kw)

/-- Embedding of `total_tasks = len(st.session_state.tasks)`. -/
def total_tasks (tasks : List TaskRec) : Nat := tasks.length

/-- Embedding of `completed = sum(1 for t in tasks if t["status"] == "Completed")`. -/
def completed_count (tasks : List TaskRec) : Nat :=
  tasks.countP (fun t => t.status == "Completed")

/-- Embedding of `overdue = sum(1 for t in tasks if is_overdue(t))`. -/
def overdue_count (tasks : List TaskRec) (now : DateTime) : Nat :=
  tasks.countP (fun t => is_overdue t now)

/-- Embedding of
`percent_completed = (completed / total_tasks * 100) if total_tasks > 0 else 0`,
over the rationals (Python computes an exact float here; no rounding happens
in this expression). -/
def percent_completed (tasks : List TaskRec) : ℚ :=
  if 0 < total_tasks tasks then
    (completed_count tasks : ℚ) / (total_tasks tasks : ℚ) * 100
  else 0

/-- Embedding of the rendering `f"{percent_completed:.1f}%"`: the metric is
shown rounded to one decimal place.  Tie cases of binary-float formatting
are modelled as round-to-nearest on the exact rational. -/
def percent_displayed (tasks : List TaskRec) : ℚ :=
  (round ((10 : ℚ) * percent_completed tasks) : ℤ) / 10

/-- Embedding of Python's `str.strip()`: drop leading and trailing
whitespace. -/
def pyStrip (s : String) : String :=
  String.mk (((s.data.dropWhile Char.isWhitespace).reverse.dropWhile Char.isWhitespace).reverse)

/-- The specification's error taxonomy for store operations, as far as the
claims need it. -/
inductive StoreError where
  | validation
  | notFound
deriving DecidableEq

/-- Outcome of a mutating UI handler: the session-state task list after the
handler, and the error it surfaced, if any (`st.warning` on validation). -/
structure HandlerResult where
  store : List TaskRec
  err : Option StoreError
deriving DecidableEq

/-- Embedding of the Add Task submit handler: warn and leave the store
untouched when the stripped name is empty, otherwise append the new record
(name and description stripped).  The fresh id (from `datetime.now()`) and
the widget values are ambient inputs, passed as parameters. -/
def add_task (tasks : List TaskRec)
    (newId nm de dd dtm pr stt : String) : HandlerResult :=
  if pyStrip nm = "" then ⟨tasks, some StoreError.validation⟩
  else ⟨tasks ++ [⟨newId, pyStrip nm, pyStrip de, dd, dtm, pr, stt⟩], none⟩

/-- Embedding of the field assignments of the Save Changes loop body: every
field except `id` is replaced (name and description stripped, as the source
strips them). -/
def applyEdit (t : TaskRec) (nm de dd dtm pr stt : String) : TaskRec :=
  { t with name := pyStrip nm, description := pyStrip de, due_date := dd,
           due_time := dtm, priority := pr, status := stt }

/-- Embedding of the Save Changes update loop: walk the list, rewrite the
first record whose id matches, `break` (the rest untouched). -/
def update_first (tasks : List TaskRec)
    (targetId nm de dd dtm pr stt : String) : List TaskRec :=
  match tasks with
  | [] => []
  | t :: rest =>
    if t.id = targetId then applyEdit t nm de dd dtm pr stt :: rest
    else t :: update_first rest targetId nm de dd dtm pr stt

/-- Embedding of the Save Changes handler: validation guard on the stripped
name, then the update loop. -/
def save_changes (tasks : List TaskRec)
    (targetId nm de dd dtm pr stt : String) : HandlerResult :=
  if pyStrip nm = "" then ⟨tasks, some StoreError.validation⟩
  else ⟨update_first tasks targetId nm de dd dtm pr stt, none⟩

/-- Embedding of the delete button handler,
`[t for t in tasks if t["id"] != task["id"]]`: a plain list comprehension.
The source has no raise and no not-found branch, so every path returns
`Except.ok`; the `Except` wrapper makes the absence of an error channel
explicit for comparison with the specification's contract. -/
def delete_task (tasks : List TaskRec) (targetId : String) :
    Except StoreError (List TaskRec) :=
  Except.ok (tasks.filter (fun t => !(t.id == targetId)))

/-- The specification's delete contract, stated from its words for
comparison: fail with `NotFoundError` when the id is absent, otherwise
remove the record. -/
def deleteSpec (tasks : List TaskRec) (targetId : String) :
    Except StoreError (List TaskRec) :=
  if tasks.any (fun t => t.id == targetId) then
    Except.ok (tasks.filter (fun t => !(t.id == targetId)))
  else Except.error StoreError.notFound

/-- JSON values, as far as `tasks_data.json` uses them.  `json.dump`
followed by `json.load` is the identity on such values (a guarantee of the
json library), so the file round trip is modelled at the level of this
tree. -/
inductive JValue where
  | jnull
  | jbool (b : Bool)
  | jnum (n : Int)
  | jstr (s : String)
  | jarr (xs : List JValue)
  | jobj (fields : List (String × JValue))

/-- One task dict as `json.dump` serialises it: an object with the seven
fields in their insertion order. -/
def taskToJson (t : TaskRec) : JValue :=
  JValue.jobj [("id", JValue.jstr t.id), ("name", JValue.jstr t.name),
    ("description", JValue.jstr t.description), ("due_date", JValue.jstr t.due_date),
    ("due_time", JValue.jstr t.due_time), ("priority", JValue.jstr t.priority),
    ("status", JValue.jstr t.status)]

/-- Embedding of `save_tasks(tasks)`: `json.dump` of the task array. -/
def save_tasks (tasks : List TaskRec) : JValue :=
  JValue.jarr (tasks.map taskToJson)

/-- Dict key lookup on a JSON object's field list. -/
def jget (fields : List (String × JValue)) (k : String) : Option JValue :=
  match fields with
  | [] => none
  | p :: rest => if p.1 = k then some p.2 else jget rest k

/-- A JSON string value, or nothing. -/
def asStr : Option JValue → Option String
  | some (JValue.jstr s) => some s
  | _ => none

/-- The correspondence between one loaded JSON object and a task record: the
seven fields the application reads from each dict. -/
def jsonToTask : JValue → Option TaskRec
  | JValue.jobj fs =>
    Option.bind (asStr (jget fs "id")) fun i =>
    Option.bind (asStr (jget fs "name")) fun nm =>
    Option.bind (asStr (jget fs "description")) fun de =>
    Option.bind (asStr (jget fs "due_date")) fun dd =>
    Option.bind (asStr (jget fs "due_time")) fun dtm =>
    Option.bind (asStr (jget fs "priority")) fun pr =>
    Option.bind (asStr (jget fs "status")) fun stt =>
    some ⟨i, nm, de, dd, dtm, pr, stt⟩
  | _ => none

/-- Decode each element of the loaded array. -/
def decodeTaskList : List JValue → Option (List TaskRec)
  | [] => some []
  | j :: rest =>
    match jsonToTask j, decodeTaskList rest with
    | some t, some ts => some (t :: ts)
    | _, _ => none

/-- Embedding of `load_tasks()` applied to the parsed file content: the task
array as stored, and the empty collection on any failure (the source's
`except Exception: return []`). -/
def load_tasks (j : JValue) : List TaskRec :=
  match j with
  | JValue.jarr xs =>
    match decodeTaskList xs with
    | some ts => ts
    | none => []
  | _ => []

/-- A completed task due 2024/01/01, end of day (scenario task A of the
specification). -/
def taskA : TaskRec :=
  ⟨"20240101000000000001", "Write report", "Quarterly numbers",
   "2024/01/01", "23:59", "High", "Completed"⟩

/-- A pending task due 2024/01/01, end of day (scenario task B). -/
def taskB : TaskRec :=
  ⟨"20240101000000000002", "Send invoice", "",
   "2024/01/01", "23:59", "Medium", "Pending"⟩

/-- A pending task with no valid due date and an absent due time (scenario
task C). -/
def taskC : TaskRec :=
  ⟨"20240101000000000003", "No date task", "",
   "not a date", "", "Low", "Pending"⟩

/-- A pending task whose due date string is well formed but whose due time
is absent (empty). -/
def taskD : TaskRec :=
  ⟨"20240101000000000004", "Timeless task", "",
   "2024/01/01", "", "Low", "Pending"⟩

/-- A clock reading after every scenario due date. -/
def lateNow : DateTime := ⟨2025, 6, 15, 12, 0⟩

/-- The range transfer through `format_due_datetime`. -/
theorem format_due_inRange {a b : String} {dt : DateTime}
    (h : format_due_datetime a b = some dt) : dt.InRange :=
  strptimeDue_inRange h

theorem take4Digits_suffix {cs r : List Char} {v : Nat}
    (h : take4Digits cs = some (v, r)) : r <:+ cs := by
  rcases cs with _ | ⟨a, _ | ⟨b, _ | ⟨c, _ | ⟨d, rest⟩⟩⟩⟩ <;>
      simp only [take4Digits] at h <;> try cases h
  split at h
  · simp only [Option.some.injEq, Prod.mk.injEq] at h
    obtain ⟨-, hr⟩ := h
    subst hr
    exact ⟨[a, b, c, d], rfl⟩
  · cases h

theorem take1or2Digits_suffix {cs r : List Char} {v : Nat}
    (h : take1or2Digits cs = some (v, r)) : r <:+ cs := by
  rcases cs with _ | ⟨a, _ | ⟨b, rest⟩⟩ <;> simp only [take1or2Digits] at h
  · cases h
  · split at h
    · simp only [Option.some.injEq, Prod.mk.injEq] at h
      obtain ⟨-, hr⟩ := h
      subst hr
      exact ⟨[a], rfl⟩
    · cases h
  · split at h
    · split at h
      · simp only [Option.some.injEq, Prod.mk.injEq] at h
        obtain ⟨-, hr⟩ := h
        subst hr
        exact ⟨[a, b], rfl⟩
      · simp only [Option.some.injEq, Prod.mk.injEq] at h
        obtain ⟨-, hr⟩ := h
        subst hr
        exact ⟨[a], rfl⟩
    · cases h

theorem expectChar_suffix {c : Char} {cs r : List Char}
    (h : expectChar c cs = some r) : r <:+ cs := by
  rcases cs with _ | ⟨x, rest⟩ <;> simp only [expectChar] at h
  · cases h
  · split at h
    · injection h with hr
      subst hr
      exact ⟨[x], rfl⟩
    · cases h

theorem skipWsMore_suffix (cs : List Char) : skipWsMore cs <:+ cs := by
  induction cs with
  | nil => exact List.suffix_refl _
  | cons a rest ih =>
    unfold skipWsMore
    split
    · exact ih.trans (List.suffix_cons a rest)
    · exact List.suffix_refl _

theorem skipWs1_suffix {cs r : List Char} (h : skipWs1 cs = some r) : r <:+ cs := by
  rcases cs with _ | ⟨x, rest⟩ <;> simp only [skipWs1] at h
  · cases h
  · split at h
    · injection h with hr
      subst hr
      exact (skipWsMore_suffix rest).trans (List.suffix_cons x rest)
    · cases h

/-- When the minute field consumes the whole remaining input, that input is
one or two digits, so its last character is a digit. -/
theorem take1or2Digits_last_digit {cs : List Char} {v : Nat}
    (h : take1or2Digits cs = some (v, [])) :
    ∃ c, cs.getLast? = some c ∧ c.isDigit = true := by
  rcases cs with _ | ⟨a, _ | ⟨b, rest⟩⟩ <;> simp only [take1or2Digits] at h
  · cases h
  · split at h
    · rename_i hd
      exact ⟨a, rfl, hd⟩
    · cases h
  · split at h
    · rename_i hd
      split at h
      · rename_i hd2
        simp only [Option.some.injEq, Prod.mk.injEq] at h
        obtain ⟨-, hr⟩ := h
        have : rest = [] := hr
        subst this
        exact ⟨b, rfl, hd2⟩
      · simp only [Option.some.injEq, Prod.mk.injEq] at h
        exact absurd h.2 (by simp)
    · cases h

theorem getLast?_append_right (t : List Char) {r : List Char} (hr : r ≠ []) :
    (t ++ r).getLast? = r.getLast? := by
  induction t with
  | nil => rfl
  | cons x xs ih =>
    rw [List.cons_append]
    cases hxr : xs ++ r with
    | nil =>
      rcases List.append_eq_nil.mp hxr with ⟨-, h2⟩
      exact absurd h2 hr
    | cons y ys =>
      rw [List.getLast?_cons_cons, ← hxr]
      exact ih

theorem getLast?_of_suffix {r cs : List Char} {c : Char}
    (hs : r <:+ cs) (h : r.getLast? = some c) : cs.getLast? = some c := by
  obtain ⟨t, rfl⟩ := hs
  have hr : r ≠ [] := by
    intro hnil
    rw [hnil] at h
    cases h
  rw [getLast?_append_right t hr]
  exact h

/-- An input ending in a blank never parses with the due format: the last
format token is the minute's digits, so a successful parse ends on a digit. -/
theorem strptimeDue_trailing_space (l : List Char) :
    strptimeDue (l ++ [' ']) = none := by
  cases hval : strptimeDue (l ++ [' ']) with
  | none => rfl
  | some dt =>
    exfalso
    unfold strptimeDue at hval
    simp only [Option.bind_eq_some] at hval
    obtain ⟨py, hpy, r2, hr2, pm, hpm, r4, hr4, pd, hpd, r6, hr6, ph, hph, r8, hr8,
      pmin, hpmin, hfin⟩ := hval
    split at hfin
    · rename_i hcond
      have hpmin2 : take1or2Digits r8 = some (pmin.1, []) := by
        rw [← hcond.1]
        exact hpmin
      obtain ⟨c, hlast, hdig⟩ := take1or2Digits_last_digit hpmin2
      have hsuf : r8 <:+ (l ++ [' ']) :=
        (expectChar_suffix hr8).trans ((take1or2Digits_suffix hph).trans
          ((skipWs1_suffix hr6).trans ((take1or2Digits_suffix hpd).trans
            ((expectChar_suffix hr4).trans ((take1or2Digits_suffix hpm).trans
              ((expectChar_suffix hr2).trans (take4Digits_suffix hpy)))))))
      have hcs : (l ++ [' ']).getLast? = some c := getLast?_of_suffix hsuf hlast
      rw [List.getLast?_concat] at hcs
      injection hcs with hc
      rw [← hc] at hdig
      cases hdig
    · cases hfin

/-- C1: when the combined due date+time parses, `is_overdue` is true exactly
when that datetime is strictly before `now` and the status is not
`"Completed"`; and a task with status `"Completed"` is never overdue,
whatever its due fields hold. -/
theorem is_overdue_spec (t : TaskRec) (now : DateTime) (hnow : now.InRange) :
    (∀ dt, format_due_datetime t.due_date t.due_time = some dt →
        (is_overdue t now = true ↔ (dt.Before now ∧ t.status ≠ "Completed")))
    ∧ (t.status = "Completed" → is_overdue t now = false) := by
  constructor
  · intro dt hdt
    have hr : dt.InRange := format_due_inRange hdt
    unfold is_overdue
    rw [hdt]
    simp only [Bool.and_eq_true, decide_eq_true_eq, Bool.not_eq_eq_eq_not,
      Bool.not_true, beq_eq_false_iff_ne, ne_eq]
    rw [DateTime.toKey_lt_iff hr hnow]
  · intro hc
    unfold is_overdue
    split
    · simp [hc]
    · rfl

/-- Witness for C1: at scenario task B (Pending, due 2024/01/01 23:59) and a
clock in mid-2025, the characterisation holds with both hypotheses
discharged concretely. -/
theorem is_overdue_spec_witness :
    (∀ dt, format_due_datetime taskB.due_date taskB.due_time = some dt →
        (is_overdue taskB lateNow = true ↔ (dt.Before lateNow ∧ taskB.status ≠ "Completed")))
    ∧ (taskB.status = "Completed" → is_overdue taskB lateNow = false) :=
  is_overdue_spec taskB lateNow (by decide)

/-- C4 amended: a task whose `due_time` is absent (the empty string) has an
unparsable combined due date+time, so `is_overdue` is false for it at every
clock — the code does not substitute end-of-day.  (End-of-day enters only as
the creation form's default `due_time` of 23:59.) -/
theorem due_time_absent_spec (t : TaskRec) (now : DateTime) (h : t.due_time = "") :
    format_due_datetime t.due_date t.due_time = none ∧ is_overdue t now = false := by
  have hp : format_due_datetime t.due_date t.due_time = none := by
    rw [h]
    unfold format_due_datetime
    have h1 : (t.due_date ++ " " ++ "").toList = t.due_date.data ++ [' '] := by
      show (t.due_date ++ " " ++ "").data = t.due_date.data ++ [' ']
      rw [String.data_append, String.data_append]
      show t.due_date.data ++ [' '] ++ [] = t.due_date.data ++ [' ']
      rw [List.append_nil]
    rw [h1]
    exact strptimeDue_trailing_space _
  refine ⟨hp, ?_⟩
  unfold is_overdue
  rw [hp]

/-- Witness for C4's amended claim at task D (well-formed date, empty time). -/
theorem due_time_absent_witness :
    format_due_datetime taskD.due_date taskD.due_time = none ∧
      is_overdue taskD lateNow = false :=
  due_time_absent_spec taskD lateNow rfl

/-- Counterexample to C4 as stated: task D is Pending, its due date's end of
day (2024/01/01 23:59) parses and is strictly before the clock
2025-06-15 12:00, so the claimed end-of-day reading would make it overdue,
yet `is_overdue` returns false because the empty `due_time` makes the
combined string unparsable. -/
theorem due_time_absent_cex :
    taskD.due_time = "" ∧
    format_due_datetime taskD.due_date "23:59" = some ⟨2024, 1, 1, 23, 59⟩ ∧
    DateTime.Before ⟨2024, 1, 1, 23, 59⟩ lateNow ∧
    taskD.status ≠ "Completed" ∧
    is_overdue taskD lateNow = false :=
  ⟨rfl, by decide, by decide, by decide, by decide⟩

/-- Counterexample to C2 as stated: deleting an id absent from a one-task
store completes normally with the store unchanged — the source's delete is
a plain comprehension with no raise, so no NotFoundError is signalled,
while the specification's contract `deleteSpec` demands one at the same
input. -/
theorem delete_absent_cex :
    delete_task [taskA] "missing-id" = Except.ok [taskA] ∧
    deleteSpec [taskA] "missing-id" = Except.error StoreError.notFound :=
  ⟨rfl, rfl⟩

/-- C2 amended: deleting an id no record carries is a silent no-op — the
store is returned unchanged and no error is signalled (the handler has no
error path at all); consequently a second delete of the same id is likewise
a silent no-op, not a NotFoundError. -/
theorem delete_absent_spec (ts : List TaskRec) (targetId : String) :
    ((∀ t ∈ ts, t.id ≠ targetId) → delete_task ts targetId = Except.ok ts)
    ∧ (∀ ts2, delete_task ts targetId = Except.ok ts2 →
        delete_task ts2 targetId = Except.ok ts2)
    ∧ (∀ e, delete_task ts targetId ≠ Except.error e) := by
  refine ⟨?_, ?_, ?_⟩
  · intro h
    unfold delete_task
    congr 1
    apply List.filter_eq_self.mpr
    intro t ht
    simp [h t ht]
  · intro ts2 h
    injection h with h2
    subst h2
    unfold delete_task
    congr 1
    apply List.filter_eq_self.mpr
    intro t ht
    exact (List.mem_filter.mp ht).2
  · intro e h
    cases h

/-- The key strings of the grouping's association list. -/
def groupKeys (acc : List (String × List TaskRec)) : List String := acc.map Prod.fst

theorem lookupGroup_insertByDate (acc : List (String × List TaskRec))
    (t : TaskRec) (d : String) :
    lookupGroup (insertByDate acc t) d =
      if d = t.due_date then lookupGroup acc d ++ [t] else lookupGroup acc d := by
  induction acc with
  | nil =>
    by_cases hd : d = t.due_date
    · simp [insertByDate, lookupGroup, hd]
    · simp [insertByDate, lookupGroup, hd, Ne.symm hd]
  | cons q rest ih =>
    obtain ⟨k, g⟩ := q
    by_cases hk : k = t.due_date <;> by_cases hd : k = d
    · have hdt : d = t.due_date := hd.symm.trans hk
      simp [insertByDate, lookupGroup, hk, hd, hdt]
    · have hdt : ¬ d = t.due_date := fun hh => hd (hk.trans hh.symm)
      have htd : ¬ t.due_date = d := fun hh => hd (hk.trans hh)
      simp [insertByDate, lookupGroup, hk, hd, hdt, htd]
    · have hdt : ¬ d = t.due_date := fun hh => hk (hd.trans hh)
      simp [insertByDate, lookupGroup, hk, hd, hdt]
    · simp [insertByDate, lookupGroup, hk, hd, ih]

theorem lookupGroup_foldl (ts : List TaskRec) (acc : List (String × List TaskRec))
    (d : String) :
    lookupGroup (ts.foldl insertByDate acc) d =
      lookupGroup acc d ++ ts.filter (fun t => t.due_date == d) := by
  induction ts generalizing acc with
  | nil => simp
  | cons t rest ih =>
    rw [List.foldl_cons, ih, lookupGroup_insertByDate]
    by_cases hd : d = t.due_date
    · have hb : (t.due_date == d) = true := by simp [hd]
      rw [if_pos hd]
      simp [List.filter_cons, hb]
    · have hb : (t.due_date == d) = false := by
        simp only [beq_eq_false_iff_ne, ne_eq]
        exact fun hh => hd hh.symm
      rw [if_neg hd]
      simp [List.filter_cons, hb]

theorem groupKeys_insertByDate (acc : List (String × List TaskRec)) (t : TaskRec) :
    groupKeys (insertByDate acc t) =
      if t.due_date ∈ groupKeys acc then groupKeys acc
      else groupKeys acc ++ [t.due_date] := by
  induction acc with
  | nil => simp [insertByDate, groupKeys]
  | cons q rest ih =>
    obtain ⟨k, g⟩ := q
    by_cases hk : k = t.due_date
    · simp [insertByDate, groupKeys, hk]
    · have hne : ¬ t.due_date = k := fun hh => hk hh.symm
      have hstep : insertByDate ((k, g) :: rest) t = (k, g) :: insertByDate rest t := by
        simp [insertByDate, hk]
      rw [hstep]
      have hgk : groupKeys ((k, g) :: insertByDate rest t)
          = k :: groupKeys (insertByDate rest t) := rfl
      have hgk2 : groupKeys ((k, g) :: rest) = k :: groupKeys rest := rfl
      rw [hgk, hgk2, ih]
      by_cases hm : t.due_date ∈ groupKeys rest
      · rw [if_pos hm, if_pos (by simp [hm])]
      · rw [if_neg hm, if_neg (by simp [hne, hm]), List.cons_append]

theorem groupKeys_nodup (ts : List TaskRec) (acc : List (String × List TaskRec))
    (hacc : (groupKeys acc).Nodup) :
    (groupKeys (ts.foldl insertByDate acc)).Nodup := by
  induction ts generalizing acc with
  | nil => exact hacc
  | cons t rest ih =>
    rw [List.foldl_cons]
    apply ih
    rw [groupKeys_insertByDate]
    split
    · exact hacc
    · rename_i hmem
      rw [List.nodup_append]
      exact ⟨hacc, List.nodup_singleton _, by simpa using hmem⟩

theorem mem_group_eq_lookup {acc : List (String × List TaskRec)}
    (hacc : (groupKeys acc).Nodup) {p : String × List TaskRec} (hp : p ∈ acc) :
    p.2 = lookupGroup acc p.1 := by
  induction acc with
  | nil => cases hp
  | cons q rest ih =>
    obtain ⟨k, g⟩ := q
    have hacc2 : k ∉ groupKeys rest ∧ (groupKeys rest).Nodup := by
      simpa [groupKeys] using hacc
    rcases List.mem_cons.mp hp with h1 | h2
    · subst h1
      simp [lookupGroup]
    · have hk : k ≠ p.1 := by
        intro hh
        have hmem : p.1 ∈ groupKeys rest := List.mem_map_of_mem Prod.fst h2
        rw [← hh] at hmem
        exact hacc2.1 hmem
      simp only [lookupGroup, if_neg hk]
      exact ih hacc2.2 h2

theorem lookupGroup_mem {acc : List (String × List TaskRec)} {d : String}
    (h : lookupGroup acc d ≠ []) :
    ∃ p ∈ acc, p.1 = d ∧ p.2 = lookupGroup acc d := by
  induction acc with
  | nil => exact absurd rfl h
  | cons q rest ih =>
    obtain ⟨k, g⟩ := q
    by_cases hk : k = d
    · exact ⟨(k, g), List.mem_cons_self _ _, hk, by simp [lookupGroup, hk]⟩
    · rw [lookupGroup, if_neg hk] at h ⊢
      obtain ⟨p, hp, h1, h2⟩ := ih h
      exact ⟨p, List.mem_cons_of_mem _ hp, h1, h2⟩

/-- C3 amended: the calendar grouping emits its groups in ascending order of
the raw `due_date` key string (Python's code-point comparison, which agrees
with date order on well-formed zero-padded dates), each group is exactly the
input's tasks with that raw key in input (insertion) order, and every task —
including every task whose due date is unparsable — appears in the group of
its raw `due_date` string; no task is excluded. -/
theorem group_by_due_date_spec (ts : List TaskRec) :
    List.Pairwise (fun a b => pyStringLe a.1 b.1 = true) (group_by_due_date ts)
    ∧ (∀ p ∈ group_by_due_date ts, p.2 = ts.filter (fun t => t.due_date == p.1))
    ∧ (∀ t ∈ ts, ∃ p ∈ group_by_due_date ts, p.1 = t.due_date ∧ t ∈ p.2) := by
  have hperm := List.perm_insertionSort (fun a b => pyStringLe a.1 b.1 = true) (tasks_by_date ts)
  refine ⟨?_, ?_, ?_⟩
  · unfold group_by_due_date
    exact List.sorted_insertionSort _ _
  · intro p hp
    unfold group_by_due_date at hp
    have hmem : p ∈ tasks_by_date ts := hperm.mem_iff.mp hp
    have hnodup : (groupKeys (tasks_by_date ts)).Nodup :=
      groupKeys_nodup ts [] (by simp [groupKeys])
    have h1 : p.2 = lookupGroup (tasks_by_date ts) p.1 := mem_group_eq_lookup hnodup hmem
    rw [h1]
    unfold tasks_by_date
    rw [lookupGroup_foldl]
    rfl
  · intro t ht
    have hself : t ∈ ts.filter (fun u => u.due_date == t.due_date) :=
      List.mem_filter.mpr ⟨ht, by simp⟩
    have hne : lookupGroup (tasks_by_date ts) t.due_date ≠ [] := by
      unfold tasks_by_date
      rw [lookupGroup_foldl]
      intro hnil
      rw [show lookupGroup [] t.due_date = [] from rfl, List.nil_append] at hnil
      rw [hnil] at hself
      cases hself
    obtain ⟨p, hp, hp1, hp2⟩ := lookupGroup_mem hne
    refine ⟨p, ?_, hp1, ?_⟩
    · unfold group_by_due_date
      exact hperm.mem_iff.mpr hp
    · rw [hp2]
      unfold tasks_by_date
      rw [lookupGroup_foldl, show lookupGroup [] t.due_date = [] from rfl, List.nil_append]
      exact hself

/-- Counterexample to C3 as stated: task C's due date+time is unparsable,
yet the grouping does not exclude it — it appears under its raw string
"not a date" (and the keys are in ascending string order, "2024/01/01"
before "not a date"). -/
theorem group_unparsable_cex :
    format_due_datetime taskC.due_date taskC.due_time = none ∧
    group_by_due_date [taskA, taskC, taskB] =
      [("2024/01/01", [taskA, taskB]), ("not a date", [taskC])] ∧
    taskC ∈ lookupGroup (group_by_due_date [taskA, taskC, taskB]) "not a date" :=
  ⟨by decide, by decide, by decide⟩

/-- C5: sorting by due date returns a permutation of the input in which the
due keys are non-decreasing, the parsed due datetimes are non-decreasing in
Python's datetime order, every task whose due date+time does not parse comes
after all parsable ones (it is keyed `datetime.max`), and ties keep the
stable input order (for each key value, the tasks with that key appear
exactly as in the input). -/
theorem sort_due_date_spec (ts : List TaskRec) :
    (sort_tasks ts SortKey.dueDate).Perm ts
    ∧ List.Pairwise (fun a b => due_dt_or_max a ≤ due_dt_or_max b)
        (sort_tasks ts SortKey.dueDate)
    ∧ (∀ i j : Fin (sort_tasks ts SortKey.dueDate).length, i ≤ j →
        ∀ di dj,
          format_due_datetime ((sort_tasks ts SortKey.dueDate).get i).due_date
            ((sort_tasks ts SortKey.dueDate).get i).due_time = some di →
          format_due_datetime ((sort_tasks ts SortKey.dueDate).get j).due_date
            ((sort_tasks ts SortKey.dueDate).get j).due_time = some dj →
          ¬ dj.Before di)
    ∧ (∀ i j : Fin (sort_tasks ts SortKey.dueDate).length, i ≤ j →
        format_due_datetime ((sort_tasks ts SortKey.dueDate).get i).due_date
          ((sort_tasks ts SortKey.dueDate).get i).due_time = none →
        format_due_datetime ((sort_tasks ts SortKey.dueDate).get j).due_date
          ((sort_tasks ts SortKey.dueDate).get j).due_time = none)
    ∧ (∀ k : Nat, (sort_tasks ts SortKey.dueDate).filter (fun t => due_dt_or_max t == k)
        = ts.filter (fun t => due_dt_or_max t == k)) := by
  have hperm : (sort_tasks ts SortKey.dueDate).Perm ts := by
    unfold sort_tasks
    exact List.perm_insertionSort _ ts
  have hsor : List.Pairwise (fun a b => due_dt_or_max a ≤ due_dt_or_max b)
      (sort_tasks ts SortKey.dueDate) := by
    unfold sort_tasks
    exact List.sorted_insertionSort _ ts
  have hkey : ∀ i j : Fin (sort_tasks ts SortKey.dueDate).length, i ≤ j →
      due_dt_or_max ((sort_tasks ts SortKey.dueDate).get i) ≤
        due_dt_or_max ((sort_tasks ts SortKey.dueDate).get j) := by
    intro i j hij
    rcases lt_or_eq_of_le hij with hlt | heq
    · exact List.pairwise_iff_get.mp hsor i j hlt
    · rw [heq]
  refine ⟨hperm, hsor, ?_, ?_, ?_⟩
  · intro i j hij di dj hdi hdj hB
    have h1 : due_dt_or_max ((sort_tasks ts SortKey.dueDate).get i) = di.toKey := by
      unfold due_dt_or_max
      rw [hdi]
    have h2 : due_dt_or_max ((sort_tasks ts SortKey.dueDate).get j) = dj.toKey := by
      unfold due_dt_or_max
      rw [hdj]
    have hri := format_due_inRange hdi
    have hrj := format_due_inRange hdj
    have hlt : dj.toKey < di.toKey := (DateTime.toKey_lt_iff hrj hri).mpr hB
    have hle := hkey i j hij
    rw [h1, h2] at hle
    omega
  · intro i j hij hnone
    have h1 : due_dt_or_max ((sort_tasks ts SortKey.dueDate).get i) = maxSortKey := by
      unfold due_dt_or_max
      rw [hnone]
    have hle := hkey i j hij
    rw [h1] at hle
    have hub := due_dt_or_max_le ((sort_tasks ts SortKey.dueDate).get j)
    have heq : due_dt_or_max ((sort_tasks ts SortKey.dueDate).get j) = maxSortKey := by omega
    exact (due_dt_or_max_eq_max_iff _).mp heq
  · intro k
    have hallk : ∀ a ∈ ts.filter (fun t => due_dt_or_max t == k), due_dt_or_max a = k := by
      intro a ha
      simpa using (List.mem_filter.mp ha).2
    have hpair : List.Pairwise (fun a b => due_dt_or_max a ≤ due_dt_or_max b)
        (ts.filter (fun t => due_dt_or_max t == k)) := by
      apply List.pairwise_of_forall_mem_list
      intro a ha b hb
      rw [hallk a ha, hallk b hb]
    have hsub : (ts.filter (fun t => due_dt_or_max t == k)).Sublist
        (sort_tasks ts SortKey.dueDate) := by
      unfold sort_tasks
      exact List.sublist_insertionSort hpair (List.filter_sublist ts)
    have hBsubA : (ts.filter (fun t => due_dt_or_max t == k)).Sublist
        ((sort_tasks ts SortKey.dueDate).filter (fun t => due_dt_or_max t == k)) := by
      have hBf : List.filter (fun t => due_dt_or_max t == k)
          (ts.filter (fun t => due_dt_or_max t == k)) =
            ts.filter (fun t => due_dt_or_max t == k) :=
        List.filter_eq_self.mpr (fun a ha => by simp [hallk a ha])
      rw [← hBf]
      exact List.Sublist.filter _ hsub
    have hAB : ((sort_tasks ts SortKey.dueDate).filter
        (fun t => due_dt_or_max t == k)).Perm (ts.filter (fun t => due_dt_or_max t == k)) :=
      List.Perm.filter _ hperm
    exact (hBsubA.eq_of_length hAB.length_eq.symm).symm

/-- Serialisation then decoding of one task is the identity. -/
theorem jsonToTask_taskToJson (t : TaskRec) : jsonToTask (taskToJson t) = some t := rfl

/-- C6: saving a collection and loading it back yields the same collection,
field for field and in the same order, for every collection of tasks. -/
theorem save_load_roundtrip (ts : List TaskRec) : load_tasks (save_tasks ts) = ts := by
  have h : decodeTaskList (ts.map taskToJson) = some ts := by
    induction ts with
    | nil => rfl
    | cons t rest ih =>
      rw [List.map_cons]
      unfold decodeTaskList
      rw [jsonToTask_taskToJson, ih]
  show (match decodeTaskList (ts.map taskToJson) with
    | some ts2 => ts2
    | none => ([] : List TaskRec)) = ts
  rw [h]

theorem count_filter_eq (p : TaskRec → Bool) (a : TaskRec) (l : List TaskRec) :
    (l.filter p).count a = if p a = true then l.count a else 0 := by
  induction l with
  | nil => simp
  | cons x rest ih =>
    rw [List.filter_cons]
    by_cases hp : p x
    · rw [if_pos hp, List.count_cons, ih, List.count_cons]
      by_cases hax : (a == x) = true
      · have haxe : a = x := by simpa using hax
        subst haxe
        simp [hp, hax]
      · have hxa : ¬ x = a := fun hh => hax (by simp [hh])
        simp [hxa]
    · rw [if_neg hp, ih, List.count_cons]
      by_cases hax : (a == x) = true
      · have haxe : a = x := by simpa using hax
        subst haxe
        simp [hp]
      · have hxa : ¬ x = a := fun hh => hax (by simp [hh])
        simp [hxa]

/-- C7: the empty keyword leaves the list untouched; a keyword keeps a
subsequence of the input (order preserved), and a task's multiplicity in the
result is its input multiplicity exactly when the lowered keyword occurs in
its lowered name, description or status (OR across the three), and zero
otherwise. -/
theorem search_filter_spec (ts : List TaskRec) (kw : String) :
    search_filter ts "" = ts
    ∧ (search_filter ts kw).Sublist ts
    ∧ (∀ t : TaskRec, (search_filter ts kw).count t =
        if kw = "" ∨ SubstrOf kw t.name ∨ SubstrOf kw t.description ∨ SubstrOf kw t.status
        then ts.count t else 0) := by
  refine ⟨rfl, ?_, ?_⟩
  · unfold search_filter
    split
    · exact List.Sublist.refl ts
    · exact List.filter_sublist ts
  · intro t
    unfold search_filter
    by_cases hkw : kw = ""
    · rw [if_pos hkw, if_pos (Or.inl hkw)]
    · rw [if_neg hkw, count_filter_eq]
      have hiff : (matches_search kw t = true) ↔
          (kw = "" ∨ SubstrOf kw t.name ∨ SubstrOf kw t.description ∨ SubstrOf kw t.status) := by
        unfold matches_search
        simp only [Bool.or_eq_true, decide_eq_true_eq, or_assoc]
        constructor
        · exact Or.inr
        · intro hh
          rcases hh with hh | hh
          · exact absurd hh hkw
          · exact hh
      by_cases hm : matches_search kw t = true
      · rw [if_pos hm, if_pos (hiff.mp hm)]
      · rw [if_neg hm, if_neg (fun hh => hm (hiff.mpr hh))]

/-- C8: the completion percentage is 0 on the empty collection and when the
total is 0 (no division by zero), and for a nonempty collection it is
completed/total*100 exactly; the rendered metric is that value rounded to
one decimal place. -/
theorem percent_completed_spec (ts : List TaskRec) :
    percent_completed [] = 0
    ∧ (total_tasks ts = 0 → percent_completed ts = 0)
    ∧ (0 < total_tasks ts →
        percent_completed ts =
          ((ts.filter (fun t => t.status == "Completed")).length : ℚ) / (ts.length : ℚ) * 100
        ∧ percent_displayed ts =
          ((round ((10 : ℚ) * (((ts.filter (fun t => t.status == "Completed")).length : ℚ)
            / (ts.length : ℚ) * 100)) : ℤ) : ℚ) / 10) := by
  refine ⟨rfl, ?_, ?_⟩
  · intro h
    unfold percent_completed
    rw [if_neg (by omega)]
  · intro h
    have hc0 : completed_count ts = (ts.filter (fun t => t.status == "Completed")).length := by
      unfold completed_count
      exact List.countP_eq_length_filter _ _
    have h1 : percent_completed ts =
        ((ts.filter (fun t => t.status == "Completed")).length : ℚ) / (ts.length : ℚ) * 100 := by
      unfold percent_completed
      rw [if_pos h, hc0]
      rfl
    refine ⟨h1, ?_⟩
    unfold percent_displayed
    rw [h1]

/-- C9: submitting the Add Task form with a name that is blank after
stripping surfaces the validation error and leaves the store exactly as it
was — no record is appended. -/
theorem add_blank_name_spec (ts : List TaskRec) (newId nm de dd dtm pr stt : String)
    (h : pyStrip nm = "") :
    add_task ts newId nm de dd dtm pr stt = ⟨ts, some StoreError.validation⟩ := by
  unfold add_task
  rw [if_pos h]

/-- Witness for C9: a whitespace-only name on a one-task store fails with
the validation error and the store is unchanged. -/
theorem add_blank_name_witness :
    add_task [taskA] "id9" "   " "d" "2024/01/01" "23:59" "Low" "Pending" =
      ⟨[taskA], some StoreError.validation⟩ :=
  add_blank_name_spec [taskA] "id9" "   " "d" "2024/01/01" "23:59" "Low" "Pending" (by decide)

theorem update_first_not_found (targetId nm de dd dtm pr stt : String) :
    ∀ ts : List TaskRec, (∀ t ∈ ts, t.id ≠ targetId) →
      update_first ts targetId nm de dd dtm pr stt = ts := by
  intro ts
  induction ts with
  | nil => intro _; rfl
  | cons x rest ih =>
    intro hall
    unfold update_first
    rw [if_neg (hall x (List.mem_cons_self x rest)),
      ih (fun u hu => hall u (List.mem_cons_of_mem x hu))]

theorem update_first_found (targetId nm de dd dtm pr stt : String) (t : TaskRec)
    (htid : t.id = targetId) :
    ∀ pre post : List TaskRec, (∀ u ∈ pre, u.id ≠ targetId) →
      update_first (pre ++ t :: post) targetId nm de dd dtm pr stt =
        pre ++ applyEdit t nm de dd dtm pr stt :: post := by
  intro pre
  induction pre with
  | nil =>
    intro post _
    rw [List.nil_append, List.nil_append]
    unfold update_first
    rw [if_pos htid]
  | cons x xs ih =>
    intro post hpre
    rw [List.cons_append, List.cons_append]
    unfold update_first
    rw [if_neg (hpre x (List.mem_cons_self x xs)),
      ih post (fun u hu => hpre u (List.mem_cons_of_mem x hu))]

/-- C10: a Save Changes update with a non-blank name signals no error, and
modifies exactly the first record whose id equals the target: if no record
matches the store is unchanged, and when the store splits as
`pre ++ t :: post` with `t` the first match, only `t` is rewritten — its id
is kept — while `pre`, `post` and the order are untouched. -/
theorem update_frame_spec (ts : List TaskRec) (targetId nm de dd dtm pr stt : String)
    (h : pyStrip nm ≠ "") :
    (save_changes ts targetId nm de dd dtm pr stt).err = none
    ∧ ((∀ t ∈ ts, t.id ≠ targetId) →
        (save_changes ts targetId nm de dd dtm pr stt).store = ts)
    ∧ (∀ pre t post, ts = pre ++ t :: post → t.id = targetId →
        (∀ u ∈ pre, u.id ≠ targetId) →
        (save_changes ts targetId nm de dd dtm pr stt).store =
          pre ++ applyEdit t nm de dd dtm pr stt :: post
        ∧ (applyEdit t nm de dd dtm pr stt).id = t.id) := by
  unfold save_changes
  rw [if_neg h]
  refine ⟨rfl, ?_, ?_⟩
  · intro hall
    exact update_first_not_found targetId nm de dd dtm pr stt ts hall
  · intro pre t post hts htid hpre
    subst hts
    exact ⟨update_first_found targetId nm de dd dtm pr stt t htid pre post hpre, rfl⟩

/-- Witness for C10: editing task B (second of two) with a non-blank name
rewrites exactly that record, keeps its id, and leaves task A untouched. -/
theorem update_frame_witness :
    (save_changes [taskA, taskB] "20240101000000000002" "New name" "nd"
        "2025/02/02" "10:00" "Low" "Completed").store =
      [taskA, applyEdit taskB "New name" "nd" "2025/02/02" "10:00" "Low" "Completed"] ∧
    (applyEdit taskB "New name" "nd" "2025/02/02" "10:00" "Low" "Completed").id = taskB.id :=
  (update_frame_spec [taskA, taskB] "20240101000000000002" "New name" "nd"
      "2025/02/02" "10:00" "Low" "Completed" (by decide)).2.2
    [taskA] taskB [] rfl rfl (by decide)
